import Mathlib

set_option linter.unusedSectionVars false
set_option linter.unusedVariables false

/-!
Verification development for the altercycle repository
(src/altercycle_core/node.py and src/altercycle_core/linked_list.py).

The container is a circular singly linked list of nodes carrying a value
(`data`), an orientation bit stored as a Python int, and a metadata bag.
We shallowly embed a container state as the list of node records that are
reachable from `head` by following `next` pointers, in ring order starting
at `head`, together with the `_size` counter (which the code maintains
separately and which can diverge from the number of reachable nodes).

Crucial semantic point, mirrored faithfully throughout: `AlterNode.__eq__`
compares nodes by value (data, orientation, metadata), and every traversal
in linked_list.py terminates via `==` / `!=` against `self.head`.  Hence a
traversal stops as soon as it reaches any node that is value-equal to the
head node, not necessarily the physical head.  In the list model, the
physical `next` of the element at position i is the element at position
i+1, and the `next` of the last element is the physical head; a comparison
`current == self.head` is therefore true at position 0 or at any position
whose record equals the record at position 0.

Orientations are modelled as `Int` (Python ints; the code assigns
`1 - orientation` without revalidation, so we do not restrict to {0,1}).
Metadata is an opaque type `M` with decidable equality (Python compares
dicts by value).  Fallible operations return `Option` (`none` models an
uncaught Python exception).
-/

namespace AC

/-- Model of `AlterNode` (node.py): record of data, orientation and
metadata.  Equality of this structure is exactly Python `AlterNode.__eq__`
(data, orientation and metadata compared by value). -/
structure AlterNode (T M : Type) where
  data : T
  orientation : Int
  metadata : M
deriving DecidableEq

/-- Model of an `AlterCycle` state: the ring of nodes reachable from
`head` (empty list when `head is None`) and the `_size` counter. -/
structure AlterCycle (T M : Type) where
  ring : List (AlterNode T M)
  size : Nat
deriving DecidableEq

/-- Model of the dict built by `create_checkpoint`: the list of node
records appended during the traversal, plus the timestamp (the wall clock
value is an input of the model). -/
structure Checkpoint (T M : Type) where
  nodes : List (AlterNode T M)
  timestamp : Nat
deriving DecidableEq

variable {T M : Type} [DecidableEq T] [DecidableEq M]

/-- `AlterNode.flip_orientation`: orientation becomes `1 - orientation`. -/
def flipN (n : AlterNode T M) : AlterNode T M :=
  ⟨n.data, 1 - n.orientation, n.metadata⟩

/-- The seam-finding walk of `AlterCycle.append` (lines 46-51): starting
from `cur` with remaining physical successors `rest`, walk while
`current.next != self.head` (value comparison against the head record `h`;
an element of `rest` equal to `h` or the physical end both stop the
walk), then
link in the new node after `current` with orientation
`1 - current.orientation`.  Nodes after the insertion point are orphaned
(no longer reachable from head). -/
def appendWalk (h cur : AlterNode T M) (rest : List (AlterNode T M)) (d : T) (m : M) :
    List (AlterNode T M) :=
  match rest with
  | [] => [cur, ⟨d, 1 - cur.orientation, m⟩]
  | x :: xs =>
    if x = h then [cur, ⟨d, 1 - cur.orientation, m⟩]
    else cur :: appendWalk h x xs d m

/-- `AlterCycle.append(data, metadata)`: first node becomes a self-linked
head with default orientation 0; otherwise the seam walk above runs from
the head.  `_size` is incremented unconditionally. -/
def append (c : AlterCycle T M) (d : T) (m : M) : AlterCycle T M :=
  match c.ring with
  | [] => ⟨[⟨d, 0, m⟩], c.size + 1⟩
  | h :: rest => ⟨appendWalk h h rest d m, c.size + 1⟩

/-- A fresh container after appending the given (value, metadata) pairs in
order. -/
def fromList (l : List (T × M)) : AlterCycle T M :=
  l.foldl (fun c p => append c p.1 p.2) ⟨[], 0⟩

/-- Convenience instantiation used for concrete counterexamples and
witnesses: natural-number values, all appended with the default (empty)
metadata, modelled as `Unit`. -/
def fromVals (vs : List Nat) : AlterCycle Nat Unit :=
  fromList (vs.map (fun v => (v, ())))

/-- The shared traversal pattern of `__iter__`, `create_checkpoint` and
the window loop of `find_patterns`: after visiting the head, keep visiting
`current` and advancing while `current == self.head` is false; the walk
ends at the physical head or at the first node value-equal to the head
record `h`. -/
def visitAux (h : AlterNode T M) : List (AlterNode T M) → List (AlterNode T M)
  | [] => []
  | x :: xs => if x = h then [] else x :: visitAux h xs

/-- The nodes visited by one full traversal bounded by
`current == self.head` (lines 246-251 and the analogous loops). -/
def visited (c : AlterCycle T M) : List (AlterNode T M) :=
  match c.ring with
  | [] => []
  | h :: rest => h :: visitAux h rest

/-- `AlterCycle.__iter__`: the finite sequence of `(data, orientation)`
pairs the iterator yields. -/
def iterPairs (c : AlterCycle T M) : List (T × Int) :=
  (visited c).map (fun n => (n.data, n.orientation))

/-- `AlterCycle.create_checkpoint`: the traversal appends one record per
visited node; `t` models the `time.time()` reading. -/
def create_checkpoint (c : AlterCycle T M) (t : Nat) : Checkpoint T M :=
  ⟨visited c, t⟩

/-- The predecessor-of-head walk in the head branch of `remove`
(lines 101-103): `current` starts at the head and advances while
`current.next != self.head`.  Returns the new ring as seen from the new
head `head.next` (i.e. the nodes `r1..current`); nodes after the stopping
point are orphaned. -/
def removeHeadWalk (h : AlterNode T M) : List (AlterNode T M) → List (AlterNode T M)
  | [] => []
  | [x] => [x]
  | x :: y :: ys => if y = h then [x] else x :: removeHeadWalk h (y :: ys)

/-- The scan loop of `remove` (lines 109-115): `while current.next !=
self.head: if current.next.data == data: splice; current = current.next`.
`none` means the loop ended without a match; `some rest2` is the ring tail
after splicing out the first match. -/
def removeScan (h : AlterNode T M) (d : T) :
    List (AlterNode T M) → Option (List (AlterNode T M))
  | [] => none
  | x :: xs =>
    if x = h then none
    else if x.data = d then some xs
    else (removeScan h d xs).map (fun l => x :: l)

/-- `AlterCycle.remove(data)`: returns the new state and the boolean
result.  Head match: if `head.next == head` (physically, or by value) the
whole ring is dropped; otherwise the predecessor walk re-links and the
head moves to `head.next`.  Otherwise the scan loop runs.  `_size` is
decremented exactly when removal is reported. -/
def remove (c : AlterCycle T M) (d : T) : AlterCycle T M × Bool :=
  match c.ring with
  | [] => (c, false)
  | h :: rest =>
    if h.data = d then
      match rest with
      | [] => (⟨[], c.size - 1⟩, true)
      | r :: rs =>
        if r = h then (⟨[], c.size - 1⟩, true)
        else (⟨removeHeadWalk h (r :: rs), c.size - 1⟩, true)
    else
      match removeScan h d rest with
      | none => (c, false)
      | some rest2 => (⟨h :: rest2, c.size - 1⟩, true)

/-- Inner loop step of `flip_states` after the lap has already flipped at
least one node: arriving at each node of the suffix, first compare it to
the (current) head record `h`; on equality stop (remaining nodes stay
unflipped, and the stop offset within the suffix is returned); otherwise
flip it and continue.  Returns the processed suffix and `some offset` for
an early value-equality stop, `none` when the walk ran off the suffix and
physically reached the head. -/
def checkFlip (h : AlterNode T M) :
    List (AlterNode T M) → List (AlterNode T M) × Option Nat
  | [] => ([], none)
  | y :: ys =>
    if y = h then (y :: ys, some 0)
    else
      let r := checkFlip h ys
      (flipN y :: r.1, r.2.map (fun i => i + 1))

/-- One lap of `flip_states` (the inner `while True`) starting with
`current` at ring position `p`: flip `current`, advance, and continue via
`checkFlip` until `current == self.head`.  Returns the new ring and the
position at which the lap stopped (where the next lap starts). -/
def lapAt (r : List (AlterNode T M)) (p : Nat) : List (AlterNode T M) × Nat :=
  match r with
  | [] => ([], 0)
  | x :: xs =>
    if p = 0 then
      let h := flipN x
      let res := checkFlip h xs
      (h :: res.1, match res.2 with | none => 0 | some i => i + 1)
    else
      match xs.drop (p - 1) with
      | [] => (x :: xs, 0)
      | y :: ys =>
        let res := checkFlip x ys
        (x :: (xs.take (p - 1) ++ flipN y :: res.1),
         match res.2 with | none => 0 | some i => p + 1 + i)

/-- The outer `for _ in range(abs(positions))` loop of `flip_states`:
`current` persists across laps, so each lap starts where the previous one
stopped. -/
def flipLaps (r : List (AlterNode T M)) (p : Nat) : Nat → List (AlterNode T M) × Nat
  | 0 => (r, p)
  | n + 1 =>
    let rp := lapAt r p
    flipLaps rp.1 rp.2 n

/-- `AlterCycle.flip_states(positions)`: no-op on an empty ring or
`positions == 0`; otherwise `abs(positions)` laps starting at the head. -/
def flip_states (c : AlterCycle T M) (positions : Int) : AlterCycle T M :=
  if c.ring = [] ∨ positions = 0 then c
  else ⟨(flipLaps c.ring 0 positions.natAbs).1, c.size⟩

/-- Physical cyclic indexing: the node reached from the head by `m`
applications of `next` is the element at index `m mod length`. -/
def cycGet (l : List α) (hl : l ≠ []) (m : Nat) : α :=
  l.get ⟨m % l.length, Nat.mod_lt _ (List.length_pos.mpr hl)⟩

/-- Take `n` nodes by following physical `next` pointers: consume the
current suffix and wrap around to the full ring `r` at its end. -/
def cycTake (r : List α) : Nat → List α → List α
  | 0, _ => []
  | n + 1, [] =>
    match r with
    | [] => []
    | y :: ys => y :: cycTake r n ys
  | n + 1, x :: xs => x :: cycTake r n xs

/-- The inner window loop of `find_patterns` (lines 153-157): starting at
ring position `p`, read `len` consecutive `(data, orientation)` pairs by
following `next` pointers (wrapping physically; no equality check inside a
window). -/
def windowAt (r : List (AlterNode T M)) (p len : Nat) : List (T × Int) :=
  (cycTake r len (r.drop p)).map (fun n => (n.data, n.orientation))

/-- The outer loop of `find_patterns`: one window per visited position
(the outer advance stops at the physical head or at the first node
value-equal to the head record, exactly like `visited`). -/
def collectWindows (c : AlterCycle T M) (len : Nat) : List (List (T × Int)) :=
  (List.range (visited c).length).map (fun p => windowAt c.ring p len)

/-- One `patterns[pattern_tuple] = patterns.get(pattern_tuple, 0) + 1`
step on the insertion-ordered dict, modelled as an association list. -/
def bump {W : Type} [DecidableEq W] (acc : List (W × Nat)) (w : W) : List (W × Nat) :=
  match acc with
  | [] => [(w, 1)]
  | (x, k) :: xs => if x = w then (x, k + 1) :: xs else (x, k) :: bump xs w

/-- `AlterCycle.find_patterns(pattern_length)`: guard
`not self.head or pattern_length > len(self)` returns `[]`; otherwise the
windows are counted in the dict and the entries with frequency `> 1` are
returned in dict (first-sighting) order.  `pattern_length` is a Python
int; a non-positive length yields empty windows (`range` of a non-positive
number is empty). -/
def find_patterns (c : AlterCycle T M) (pattern_length : Int) :
    List (List (T × Int) × Nat) :=
  if c.ring = [] ∨ (c.size : Int) < pattern_length then []
  else ((collectWindows c pattern_length.toNat).foldl bump []).filter
        (fun pk => 1 < pk.2)

/-- The thread-spawning loop of `process_parallel` (lines 189-195): for
each `i < fuel` remaining workers, worker `i` gets
`count = size / num_threads + (1 if i < size % num_threads else 0)` nodes
starting at ring position `pos` (walking physical `next` pointers), and
`current` advances `count` steps before the next worker starts.  Each
inner list is the sequence of `(data, orientation)` arguments passed to
the callback by that worker, in its traversal order. -/
def ppLoop (r : List (AlterNode T M)) (hr : r ≠ []) (q rem : Nat) :
    Nat → Nat → Nat → List (List (T × Int))
  | _, _, 0 => []
  | i, pos, fuel + 1 =>
    let cnt := q + if i < rem then 1 else 0
    ((List.range cnt).map (fun j =>
        ((cycGet r hr (pos + j)).data, (cycGet r hr (pos + j)).orientation)))
      :: ppLoop r hr q rem (i + 1) (pos + cnt) fuel

/-- `AlterCycle.process_parallel(func, num_threads)`: returns immediately
on an empty ring (before any division); with a non-empty ring and
`num_threads = 0` the integer division `length // num_threads` raises
`ZeroDivisionError` before any worker is spawned (modelled as `none`);
otherwise `some` of the per-worker callback argument lists. -/
def process_parallel (c : AlterCycle T M) (k : Nat) :
    Option (List (List (T × Int))) :=
  match c.ring with
  | [] => some []
  | h :: t =>
    if k = 0 then none
    else some (ppLoop (h :: t) (List.cons_ne_nil h t) (c.size / k) (c.size % k) 0 0 k)

/-! ### Specification-side definitions

These definitions render the spec's vocabulary (alternating orientation
sequences, first-match removal, window multiset counts) and are compared
against the model above in the theorems. -/

/-- The orientation at distance `n` from a node of orientation `o` in a
perfectly alternating ring: `o` at even distance, `1 - o` at odd. -/
def apar (o : Int) (n : Nat) : Int :=
  if n % 2 = 0 then o else 1 - o

/-- A perfectly alternating ring over the given (value, metadata) pairs,
starting with orientation `o`. -/
def altRing (o : Int) : List (T × M) → List (AlterNode T M)
  | [] => []
  | (v, m) :: l => ⟨v, o, m⟩ :: altRing (1 - o) l

/-- The spec's iteration sequence for appended values: append order paired
with the alternating orientation sequence starting at `o`. -/
def altPairs (o : Int) : List T → List (T × Int)
  | [] => []
  | v :: vs => (v, o) :: altPairs (1 - o) vs

/-- Helper tracking the `current` node of the append walk: the orientation
of the last node of `cur :: l`. -/
def lastOr (cur : AlterNode T M) : List (AlterNode T M) → Int
  | [] => cur.orientation
  | x :: xs => lastOr x xs

/-- Spec-side removal: drop the first node whose data equals `d`. -/
def eraseFirstData : List (AlterNode T M) → T → List (AlterNode T M)
  | [], _ => []
  | x :: xs, d => if x.data = d then xs else x :: eraseFirstData xs d

/-- Occurrence count of `w` in a list. -/
def occCount {W : Type} [DecidableEq W] : List W → W → Nat
  | [], _ => 0
  | x :: xs, w => (if x = w then 1 else 0) + occCount xs w

/-- The spec's window family for `find_patterns`: exactly `size` windows,
one starting at each ring position, wrapping across the seam. -/
def specWindows (c : AlterCycle T M) (len : Nat) : List (List (T × Int)) :=
  (List.range c.size).map (fun p => windowAt c.ring p len)

/-- No node of the ring other than the head itself is value-equal to the
head record.  This is exactly the condition under which every
`== self.head` traversal bound behaves like a physical-identity bound. -/
def noHeadDup : List (AlterNode T M) → Prop
  | [] => True
  | h :: rest => ∀ x ∈ rest, x ≠ h

instance (r : List (AlterNode T M)) : Decidable (noHeadDup r) :=
  match r with
  | [] => Decidable.isTrue trivial
  | h :: rest => inferInstanceAs (Decidable (∀ x ∈ rest, x ≠ h))

/-- No node of the ring other than the head is value-equal to the flipped
head record (same data and metadata, opposite orientation): the condition
under which a `flip_states` lap completes a full circle. -/
def flipSafe : List (AlterNode T M) → Prop
  | [] => True
  | h :: rest => ∀ x ∈ rest, x ≠ flipN h

instance (r : List (AlterNode T M)) : Decidable (flipSafe r) :=
  match r with
  | [] => Decidable.isTrue trivial
  | h :: rest => inferInstanceAs (Decidable (∀ x ∈ rest, x ≠ flipN h))

/-- Keys of the dict model. -/
def tblKeys {W : Type} (acc : List (W × Nat)) : List W :=
  acc.map Prod.fst

/-- Lookup in the dict model, defaulting to 0 for a missing key. -/
def tblCnt {W : Type} [DecidableEq W] : List (W × Nat) → W → Nat
  | [], _ => 0
  | (x, k) :: xs, w => if x = w then k else tblCnt xs w

/-- Total callback count of the `process_parallel` partition: the sum of
the worker counts for workers `i, i+1, ..., i+fuel-1`. -/
def segTot (q rem : Nat) : Nat → Nat → Nat
  | _, 0 => 0
  | i, fuel + 1 => (q + if i < rem then 1 else 0) + segTot q rem (i + 1) fuel

end AC

namespace AC

/-! ### Basic lemmas: parity, alternating rings, traversal prefixes -/

variable {T M : Type} [DecidableEq T] [DecidableEq M]

theorem apar_zero (o : Int) : apar o 0 = o := by
  simp [apar]

theorem apar_succ (o : Int) (n : Nat) : apar o (n + 1) = 1 - apar o n := by
  unfold apar
  rcases Nat.mod_two_eq_zero_or_one n with h | h
  · have h2 : (n + 1) % 2 = 1 := by omega
    simp [h, h2]
  · have h2 : (n + 1) % 2 = 0 := by omega
    simp [h, h2]

theorem apar_shift (o : Int) (n : Nat) : apar (1 - o) n = apar o (n + 1) := by
  rw [apar_succ]
  unfold apar
  split <;> ring

theorem altRing_cons (o : Int) (p : T × M) (l : List (T × M)) :
    altRing o (p :: l) = ⟨p.1, o, p.2⟩ :: altRing (1 - o) l := by
  cases p
  rfl

theorem altRing_length (o : Int) (l : List (T × M)) :
    (altRing o l).length = l.length := by
  induction l generalizing o with
  | nil => rfl
  | cons p l ih => rw [altRing_cons]; simp [ih]

theorem altRing_append (o : Int) (l1 l2 : List (T × M)) :
    altRing o (l1 ++ l2) = altRing o l1 ++ altRing (apar o l1.length) l2 := by
  induction l1 generalizing o with
  | nil => simp [altRing, apar_zero]
  | cons p l1 ih =>
    rw [List.cons_append, altRing_cons, altRing_cons, ih (1 - o)]
    rw [apar_shift]
    simp

theorem altRing_take (o : Int) (l : List (T × M)) (n : Nat) :
    (altRing o l).take n = altRing o (l.take n) := by
  induction l generalizing o n with
  | nil => simp [altRing]
  | cons p l ih =>
    cases n with
    | zero => simp [altRing]
    | succ n => rw [altRing_cons, List.take_succ_cons, List.take_succ_cons,
        altRing_cons, ih]

theorem altRing_getElem?_orientation (o : Int) (l : List (T × M)) (i : Nat)
    (x : AlterNode T M) (hx : (altRing o l)[i]? = some x) :
    x.orientation = apar o i := by
  induction l generalizing o i with
  | nil => simp [altRing] at hx
  | cons p l ih =>
    rw [altRing_cons] at hx
    cases i with
    | zero =>
      simp at hx
      rw [← hx, apar_zero]
    | succ i =>
      simp at hx
      rw [ih (1 - o) i hx, apar_shift]

theorem altRing_map_data (o : Int) (l : List (T × M)) :
    (altRing o l).map (fun n => n.data) = l.map Prod.fst := by
  induction l generalizing o with
  | nil => rfl
  | cons p l ih => rw [altRing_cons]; simp [ih]

theorem altRing_pairs (o : Int) (l : List (T × M)) :
    (altRing o l).map (fun n => (n.data, n.orientation))
      = altPairs o (l.map Prod.fst) := by
  induction l generalizing o with
  | nil => rfl
  | cons p l ih => rw [altRing_cons]; simp [altPairs, ih]

theorem altPairs_length (o : Int) (vs : List T) :
    (altPairs o vs).length = vs.length := by
  induction vs generalizing o with
  | nil => rfl
  | cons v vs ih => simp [altPairs, ih]

theorem altPairs_map_fst (o : Int) (vs : List T) :
    (altPairs o vs).map Prod.fst = vs := by
  induction vs generalizing o with
  | nil => rfl
  | cons v vs ih => simp [altPairs, ih]

theorem altPairs_getElem?_snd (o : Int) (vs : List T) (i : Nat) (x : T × Int)
    (hx : (altPairs o vs)[i]? = some x) : x.2 = apar o i := by
  induction vs generalizing o i with
  | nil => simp [altPairs] at hx
  | cons v vs ih =>
    cases i with
    | zero =>
      simp [altPairs] at hx
      rw [← hx, apar_zero]
    | succ i =>
      simp [altPairs] at hx
      rw [ih (1 - o) i hx, apar_shift]

theorem lastOr_cons_altRing (o : Int) (c : AlterNode T M) (l : List (T × M)) :
    lastOr c (altRing o l) = if l = [] then c.orientation else apar o (l.length - 1) := by
  induction l generalizing c o with
  | nil => simp [altRing, lastOr]
  | cons p l ih =>
    rw [altRing_cons]
    show lastOr ⟨p.1, o, p.2⟩ (altRing (1 - o) l) = _
    rw [ih]
    rcases eq_or_ne l [] with h | h
    · simp [h, apar_zero]
    · have hl : 0 < l.length := List.length_pos.mpr h
      have h1 : l.length - 1 + 1 = l.length := by omega
      simp only [h, if_neg, List.cons_ne_nil, if_false]
      rw [apar_shift, h1]
      simp [List.length_cons]

theorem visitAux_ne_head (h : AlterNode T M) (l : List (AlterNode T M)) :
    ∀ x ∈ visitAux h l, x ≠ h := by
  induction l with
  | nil => simp [visitAux]
  | cons y ys ih =>
    intro x hx
    by_cases hy : y = h
    · simp [visitAux, hy] at hx
    · simp [visitAux, hy] at hx
      rcases hx with hx | hx
      · rw [hx]; exact hy
      · exact ih x hx

theorem visitAux_of_forall_ne (h : AlterNode T M) (l : List (AlterNode T M))
    (hl : ∀ x ∈ l, x ≠ h) : visitAux h l = l := by
  induction l with
  | nil => rfl
  | cons y ys ih =>
    have hy : y ≠ h := hl y (by simp)
    simp [visitAux, hy]
    exact ih (fun x hx => hl x (by simp [hx]))

theorem visitAux_eq_take (h : AlterNode T M) (l : List (AlterNode T M)) :
    ∃ j, j ≤ l.length ∧ visitAux h l = l.take j := by
  induction l with
  | nil => exact ⟨0, by simp [visitAux]⟩
  | cons y ys ih =>
    by_cases hy : y = h
    · exact ⟨0, by simp [visitAux, hy]⟩
    · obtain ⟨j, hj, hv⟩ := ih
      exact ⟨j + 1, by simpa using hj, by simp [visitAux, hy, hv]⟩

theorem visited_of_noHeadDup (c : AlterCycle T M) (hc : noHeadDup c.ring) :
    visited c = c.ring := by
  rcases hr : c.ring with _ | ⟨h, rest⟩
  · simp [visited, hr]
  · rw [hr] at hc
    simp [visited, hr, visitAux_of_forall_ne h rest hc]

theorem noHeadDup_cons_of_sub (h : AlterNode T M)
    (l1 l2 : List (AlterNode T M)) (hsub : ∀ x ∈ l1, x ∈ l2)
    (hd : noHeadDup (h :: l2)) : noHeadDup (h :: l1) :=
  fun x hx => hd x (hsub x hx)

end AC

namespace AC

variable {T M : Type} [DecidableEq T] [DecidableEq M]

/-! ### Characterisation of `append` and of containers built by appends -/

theorem append_size (c : AlterCycle T M) (d : T) (m : M) :
    (append c d m).size = c.size + 1 := by
  rcases c with ⟨ring, s⟩
  cases ring <;> rfl

theorem appendWalk_eq (h cur : AlterNode T M) (rest : List (AlterNode T M))
    (d : T) (m : M) :
    appendWalk h cur rest d m
      = (cur :: visitAux h rest) ++ [⟨d, 1 - lastOr cur (visitAux h rest), m⟩] := by
  induction rest generalizing cur with
  | nil => simp [appendWalk, visitAux, lastOr]
  | cons x xs ih =>
    by_cases hx : x = h
    · simp [appendWalk, visitAux, hx, lastOr]
    · simp only [appendWalk, visitAux, hx, if_false, ih x]
      simp [lastOr]

theorem append_ring_cons (h : AlterNode T M) (rest : List (AlterNode T M))
    (s : Nat) (d : T) (m : M) :
    append ⟨h :: rest, s⟩ d m
      = ⟨(h :: visitAux h rest) ++ [⟨d, 1 - lastOr h (visitAux h rest), m⟩], s + 1⟩ := by
  show (⟨appendWalk h h rest d m, s + 1⟩ : AlterCycle T M) = _
  rw [appendWalk_eq]

/-- Appending a node at the end of a nonempty alternating ring keeps it a
perfectly alternating ring over the snoc-extended pair list. -/
theorem altRing_snoc_node (u : List (T × M)) (c0 : AlterNode T M)
    (rest0 : List (AlterNode T M)) (he : altRing 0 u = c0 :: rest0)
    (d : T) (m : M) :
    (c0 :: rest0) ++ [⟨d, 1 - lastOr c0 rest0, m⟩] = altRing 0 (u ++ [(d, m)]) := by
  rcases u with _ | ⟨p, u'⟩
  · simp [altRing] at he
  · rw [altRing_cons] at he
    obtain ⟨hc0, hrest0⟩ : (⟨p.1, 0, p.2⟩ : AlterNode T M) = c0 ∧ altRing (1 - 0) u' = rest0 := by
      constructor <;> [exact (List.cons.injEq _ _ _ _ ▸ he).1; exact (List.cons.injEq _ _ _ _ ▸ he).2]
    have hlast : lastOr c0 rest0 = apar 0 ((p :: u').length - 1) := by
      rw [← hc0, ← hrest0]
      show lastOr (⟨p.1, 0, p.2⟩ : AlterNode T M) (altRing (1 - 0) u') = _
      rw [lastOr_cons_altRing]
      rcases eq_or_ne u' [] with h' | h'
      · simp [h', apar_zero]
      · have h1 : u'.length - 1 + 1 = u'.length := by
          have := List.length_pos.mpr h'
          omega
        rw [if_neg h', apar_shift, h1]
        simp [List.length_cons]
    rw [altRing_append, ← he, hlast]
    have h2 : apar 0 (p :: u').length = 1 - apar 0 ((p :: u').length - 1) := by
      conv_lhs => rw [show (p :: u').length = ((p :: u').length - 1) + 1 from by
        simp [List.length_cons]]
      rw [apar_succ]
    rw [← h2]
    simp [altRing, apar_zero]

/-- The ring of any container built by appends is a perfectly alternating
ring over some sub-prefix-structured pair list; the size counter counts
the appends (not the reachable nodes). -/
theorem fromList_spec (l : List (T × M)) :
    ∃ pl : List (T × M), (fromList l).ring = altRing 0 pl
      ∧ (∀ x ∈ pl, x ∈ l) ∧ (fromList l).size = l.length := by
  induction l using List.reverseRecOn with
  | nil => exact ⟨[], rfl, by simp, rfl⟩
  | append_singleton l p ih =>
    obtain ⟨pl, hring, hmem, hsize⟩ := ih
    have hfl : fromList l = ⟨altRing 0 pl, l.length⟩ := by
      rw [← hring, ← hsize]
    have hsnoc : fromList (l ++ [p]) = append (fromList l) p.1 p.2 := by
      simp [fromList, List.foldl_append]
    rcases hpl : pl with _ | ⟨q, pl'⟩
    · refine ⟨[(p.1, p.2)], ?_, by simp, ?_⟩
      · rw [hsnoc, hfl, hpl]
        show (⟨[⟨p.1, 0, p.2⟩], l.length + 1⟩ : AlterCycle T M).ring = _
        simp [altRing]
      · rw [hsnoc, hfl, append_size]
        show l.length + 1 = _
        simp
    · have hcons : altRing 0 pl = (⟨q.1, 0, q.2⟩ : AlterNode T M) :: altRing (1 - 0) pl' := by
        rw [hpl, altRing_cons]
      obtain ⟨j, hj, hv⟩ := visitAux_eq_take (⟨q.1, 0, q.2⟩ : AlterNode T M) (altRing (1 - 0) pl')
      have hpre : (⟨q.1, 0, q.2⟩ : AlterNode T M)
          :: visitAux ⟨q.1, 0, q.2⟩ (altRing (1 - 0) pl') = altRing 0 (pl.take (j + 1)) := by
        rw [hv, ← altRing_take]
        rw [hcons]
        simp [List.take_succ_cons]
      refine ⟨pl.take (j + 1) ++ [(p.1, p.2)], ?_, ?_, ?_⟩
      · rw [hsnoc, hfl, hcons, append_ring_cons]
        show ((⟨q.1, 0, q.2⟩ : AlterNode T M) :: visitAux ⟨q.1, 0, q.2⟩ (altRing (1 - 0) pl'))
            ++ [⟨p.1, 1 - lastOr ⟨q.1, 0, q.2⟩ (visitAux ⟨q.1, 0, q.2⟩ (altRing (1 - 0) pl')), p.2⟩] = _
        exact altRing_snoc_node (pl.take (j + 1)) _ _ hpre.symm p.1 p.2
      · intro x hx
        rcases List.mem_append.mp hx with hx | hx
        · exact List.mem_append.mpr (Or.inl (hmem x (List.take_subset _ _ hx)))
        · simp at hx
          simp [hx]
      · rw [hsnoc, hfl, append_size]
        show l.length + 1 = _
        simp

/-- Ring of a container built by appends, weak form used for C1. -/
theorem fromList_ring_alt (l : List (T × M)) :
    ∃ pl : List (T × M), (fromList l).ring = altRing 0 pl := by
  obtain ⟨pl, h, -, -⟩ := fromList_spec l
  exact ⟨pl, h⟩

end AC

namespace AC

variable {T M : Type} [DecidableEq T] [DecidableEq M]

theorem noHeadDup_cons (h : AlterNode T M) (rest : List (AlterNode T M)) :
    noHeadDup (h :: rest) ↔ ∀ x ∈ rest, x ≠ h :=
  Iff.rfl

theorem map_fst_pair (m : M) (vs : List T) :
    List.map (Prod.fst ∘ fun v => (v, m)) vs = vs := by
  induction vs with
  | nil => rfl
  | cons w ws ih => simpa using ih

theorem noHeadDup_altRing_prefix (l : List (T × M)) (p : T × M)
    (H : noHeadDup (altRing 0 (l ++ [p]))) : noHeadDup (altRing 0 l) := by
  rw [altRing_append] at H
  rcases hl : altRing 0 l with _ | ⟨h, t⟩
  · trivial
  · rw [hl] at H
    rw [List.cons_append] at H
    intro x hx
    exact H x (List.mem_append_left _ hx)

theorem fromList_of_noHeadDup (l : List (T × M))
    (H : noHeadDup (altRing 0 l)) :
    fromList l = ⟨altRing 0 l, l.length⟩ := by
  induction l using List.reverseRecOn with
  | nil => rfl
  | append_singleton l p ih =>
    have Hl : noHeadDup (altRing 0 l) := noHeadDup_altRing_prefix l p H
    have hfl := ih Hl
    have hsnoc : fromList (l ++ [p]) = append (fromList l) p.1 p.2 := by
      simp [fromList, List.foldl_append]
    rcases hl : altRing 0 l with _ | ⟨h, t⟩
    · have hnil : l = [] := by
        have hlen := altRing_length (M := M) 0 l
        rw [hl] at hlen
        exact List.length_eq_zero.mp hlen.symm
      subst hnil
      rw [hsnoc, hfl]
      cases p
      rfl
    · have ht : ∀ x ∈ t, x ≠ h := by
        rw [hl] at Hl
        exact Hl
      rw [hsnoc, hfl, hl, append_ring_cons]
      rw [visitAux_of_forall_ne h t ht]
      rw [AlterCycle.mk.injEq]
      constructor
      · exact altRing_snoc_node l h t hl p.1 p.2
      · simp

/-- Claim C1: for every sequence of append calls into a fresh container
(arbitrary values and metadata), after each append — i.e. for every
prefix `l.take k` of the appended pairs — the alternation invariant INV1
holds: for every adjacent ring pair `(node at i, node at i+1)`, which is
exactly every adjacent pair except the seam pair (last node, head),
`next.orientation = 1 - orientation`. -/
theorem c1_inv1_alternation (l : List (T × M)) (k i : Nat)
    (a b : AlterNode T M)
    (ha : (fromList (l.take k)).ring[i]? = some a)
    (hb : (fromList (l.take k)).ring[i + 1]? = some b) :
    b.orientation = 1 - a.orientation := by
  obtain ⟨pl, hring⟩ := fromList_ring_alt (l.take k)
  rw [hring] at ha hb
  rw [altRing_getElem?_orientation 0 pl i a ha,
      altRing_getElem?_orientation 0 pl (i + 1) b hb, apar_succ]

/-- Witness for C1: three appends, the pair at positions 1 and 2. -/
theorem c1_witness :
    (fromList (([((5:Nat), ()), (6, ()), (7, ())]).take 3)).ring[1]? = some ⟨6, 1, ()⟩
    ∧ (fromList (([((5:Nat), ()), (6, ()), (7, ())]).take 3)).ring[1 + 1]? = some ⟨7, 0, ()⟩
    ∧ (⟨7, 0, ()⟩ : AlterNode Nat Unit).orientation
        = 1 - (⟨6, 1, ()⟩ : AlterNode Nat Unit).orientation :=
  ⟨by decide, by decide,
    c1_inv1_alternation [((5:Nat), ()), (6, ()), (7, ())] 3 1 ⟨6, 1, ()⟩ ⟨7, 0, ()⟩
      (by decide) (by decide)⟩

/-- Counterexample to claim C2 as stated: appending `[0, 1, 0]` (default
metadata) makes the third node value-equal to the head, so iteration stops
after two pairs: it does not yield the three appended values, and its
length is 2 while `size` is 3. -/
theorem c2_counterexample :
    iterPairs (fromVals [0, 1, 0]) = [(0, 0), (1, 1)] ∧
    (iterPairs (fromVals [0, 1, 0])).map Prod.fst ≠ [0, 1, 0] ∧
    (iterPairs (fromVals [0, 1, 0])).length ≠ (fromVals [0, 1, 0]).size :=
  ⟨by decide, by decide, by decide⟩

/-- Claim C2, amended: provided no appended value at a nonzero even
position forms a node value-equal to the head (hypothesis `noHeadDup` on
the intended alternating ring; with uniform default metadata this says no
value at a nonzero even index equals the first value), iteration over the
freshly built container yields exactly the appended values in order paired
with the alternating orientation sequence 0,1,0,1,... (first element 0),
and the iteration is finite with length equal to `size`. -/
theorem c2_amended (vs : List T) (m : M)
    (H : noHeadDup (altRing 0 (vs.map (fun v => (v, m))))) :
    iterPairs (fromList (vs.map (fun v => (v, m)))) = altPairs 0 vs ∧
    (iterPairs (fromList (vs.map (fun v => (v, m))))).map Prod.fst = vs ∧
    (∀ i x, (iterPairs (fromList (vs.map (fun v => (v, m)))))[i]? = some x →
        x.2 = if i % 2 = 0 then 0 else 1) ∧
    (iterPairs (fromList (vs.map (fun v => (v, m))))).length
      = (fromList (vs.map (fun v => (v, m)))).size := by
  have hfl := fromList_of_noHeadDup _ H
  have hnd : noHeadDup (fromList (vs.map (fun v => (v, m)))).ring := by
    rw [hfl]
    exact H
  have hvis := visited_of_noHeadDup _ hnd
  have hiter : iterPairs (fromList (vs.map (fun v => (v, m)))) = altPairs 0 vs := by
    rw [iterPairs, hvis, hfl]
    show (altRing 0 (vs.map (fun v => (v, m)))).map _ = _
    rw [altRing_pairs]
    congr 1
    rw [List.map_map]
    exact map_fst_pair m vs
  refine ⟨hiter, ?_, ?_, ?_⟩
  · rw [hiter, altPairs_map_fst]
  · intro i x hx
    rw [hiter] at hx
    rw [altPairs_getElem?_snd 0 vs i x hx]
    unfold apar
    split
    · rfl
    · norm_num
  · rw [hiter, altPairs_length, hfl]
    show vs.length = (⟨altRing 0 (vs.map (fun v => (v, m))),
        (vs.map (fun v => (v, m))).length⟩ : AlterCycle T M).size
    simp

/-- Witness for C2 at the duplicate-free append sequence `[5, 6, 7]`. -/
theorem c2_witness :
    noHeadDup (altRing 0 ([(5:Nat), 6, 7].map (fun v => (v, ())))) ∧
    iterPairs (fromList ([(5:Nat), 6, 7].map (fun v => (v, ())))) = altPairs 0 [5, 6, 7] :=
  ⟨by decide, (c2_amended [5, 6, 7] () (by decide)).1⟩

end AC

namespace AC

variable {T M : Type} [DecidableEq T] [DecidableEq M]

theorem visited_of_ring_eq (c : AlterCycle T M) (r : List (AlterNode T M))
    (hr : c.ring = r) : visited c = visited ⟨r, c.size⟩ := by
  rcases c with ⟨ring, s⟩
  simp only at hr
  subst hr
  rfl

/-- The traversal of any alternating ring visits an alternating ring over
a prefix of its pair list, and the visited part is head-duplicate-free. -/
theorem visited_altRing (c : AlterCycle T M) (pl : List (T × M))
    (hring : c.ring = altRing 0 pl) :
    ∃ u, (∃ j, u = pl.take j) ∧ visited c = altRing 0 u
      ∧ noHeadDup (altRing 0 u) := by
  rcases hpl : pl with _ | ⟨q, pl'⟩
  · refine ⟨[], ⟨0, by simp⟩, ?_, trivial⟩
    have hr : c.ring = [] := by rw [hring, hpl]; rfl
    rw [visited_of_ring_eq c [] hr]
    rfl
  · have hcons : altRing 0 pl = (⟨q.1, 0, q.2⟩ : AlterNode T M) :: altRing (1 - 0) pl' := by
      rw [hpl, altRing_cons]
    obtain ⟨j, hj, hv⟩ :=
      visitAux_eq_take (⟨q.1, 0, q.2⟩ : AlterNode T M) (altRing (1 - 0) pl')
    have hpre : (⟨q.1, 0, q.2⟩ : AlterNode T M)
        :: visitAux ⟨q.1, 0, q.2⟩ (altRing (1 - 0) pl') = altRing 0 (pl.take (j + 1)) := by
      rw [hv, ← altRing_take, hcons]
      simp [List.take_succ_cons]
    refine ⟨pl.take (j + 1), ⟨j + 1, by rw [hpl]⟩, ?_, ?_⟩
    · rw [visited_of_ring_eq c _ (by rw [hring, hcons])]
      exact hpre
    · rw [← hpre]
      exact visitAux_ne_head _ _

theorem altRing_map_data_meta (o : Int) (u : List (T × M)) (m : M)
    (h : ∀ x ∈ u, x.2 = m) :
    (altRing o u).map (fun n => (n.data, m)) = u := by
  induction u generalizing o with
  | nil => rfl
  | cons p u ih =>
    rw [altRing_cons]
    simp only [List.map_cons]
    have hp : p.2 = m := h p (by simp)
    have hfix : ((⟨p.1, o, p.2⟩ : AlterNode T M).data, m) = p := by
      rw [← hp]
    rw [hfix]
    congr 1
    exact ih (1 - o) (fun x hx => h x (by simp [hx]))

/-- Counterexample to claim C7 as stated: for the container state obtained
by appending `[0, 1, 2]` and then removing `1` (a legitimate container
state), the ring is `[(0,0),(2,0)]` (removal does not re-enforce
alternation), so replaying the checkpoint values through `append` yields
orientations `0,1` instead and a different iteration sequence. -/
theorem c7_counterexample :
    iterPairs ((remove (fromVals [0, 1, 2]) 1).1) = [(0, 0), (2, 0)] ∧
    iterPairs (fromList
      (((create_checkpoint ((remove (fromVals [0, 1, 2]) 1).1) 0).nodes).map
        (fun n => (n.data, ())))) = [(0, 0), (2, 1)] ∧
    iterPairs (fromList
      (((create_checkpoint ((remove (fromVals [0, 1, 2]) 1).1) 0).nodes).map
        (fun n => (n.data, ()))))
      ≠ iterPairs ((remove (fromVals [0, 1, 2]) 1).1) :=
  ⟨by decide, by decide, by decide⟩

/-- Claim C7, amended: for every container built by a sequence of appends
that all use the same (default) metadata, rebuilding a fresh container by
replaying `append` over the values of the checkpoint node list (in order,
with that same default metadata) yields a container whose iteration
sequence of (value, orientation) pairs is identical to the original
container iteration sequence. -/
theorem c7_amended (vs : List T) (m : M) (t : Nat) :
    iterPairs (fromList
      (((create_checkpoint (fromList (vs.map (fun v => (v, m)))) t).nodes).map
        (fun n => (n.data, m))))
    = iterPairs (fromList (vs.map (fun v => (v, m)))) := by
  obtain ⟨pl, hring, hmem, -⟩ := fromList_spec (vs.map (fun v => (v, m)))
  have hsnd : ∀ x ∈ pl, x.2 = m := by
    intro x hx
    obtain ⟨v, -, hv⟩ := List.mem_map.mp (hmem x hx)
    rw [← hv]
  obtain ⟨u, ⟨j, hu⟩, hvis, hnd⟩ := visited_altRing _ pl hring
  have husnd : ∀ x ∈ u, x.2 = m := by
    intro x hx
    rw [hu] at hx
    exact hsnd x (List.take_subset _ _ hx)
  have hmap : ((create_checkpoint (fromList (vs.map (fun v => (v, m)))) t).nodes).map
      (fun n => (n.data, m)) = u := by
    show (visited (fromList (vs.map (fun v => (v, m))))).map (fun n => (n.data, m)) = u
    rw [hvis]
    exact altRing_map_data_meta 0 u m husnd
  rw [hmap]
  have hflu := fromList_of_noHeadDup u hnd
  have hnd2 : noHeadDup (fromList u).ring := by
    rw [hflu]
    exact hnd
  have h1 : iterPairs (fromList u)
      = (altRing 0 u).map (fun n => (n.data, n.orientation)) := by
    rw [iterPairs, visited_of_noHeadDup _ hnd2, hflu]
  have h2 : iterPairs (fromList (vs.map (fun v => (v, m))))
      = (altRing 0 u).map (fun n => (n.data, n.orientation)) := by
    rw [iterPairs, hvis]
  rw [h1, h2]

/-- Counterexample to claim C8 as stated: after appending `[0, 1, 0]` the
ring has three nodes but the checkpoint traversal stops at the third node
(value-equal to the head), so the node list of the snapshot is not the
ring content in ring order — one reachable node is missing. -/
theorem c8_counterexample :
    (create_checkpoint (fromVals [0, 1, 0]) 0).nodes = [⟨0, 0, ()⟩, ⟨1, 1, ()⟩] ∧
    (fromVals [0, 1, 0]).ring = [⟨0, 0, ()⟩, ⟨1, 1, ()⟩, ⟨0, 0, ()⟩] ∧
    (create_checkpoint (fromVals [0, 1, 0]) 0).nodes ≠ (fromVals [0, 1, 0]).ring :=
  ⟨by decide, by decide, by decide⟩

/-- Claim C8, amended: `createCheckpoint` produces the structured snapshot
value `{nodes, timestamp}`; provided no non-head node is value-equal to
the head, the node entries are exactly the ring nodes in ring order
starting from `head`; on an empty container the result is
`{nodes: [], timestamp: t}`. -/
theorem c8_amended (c : AlterCycle T M) (t : Nat) :
    (noHeadDup c.ring → (create_checkpoint c t).nodes = c.ring) ∧
    (create_checkpoint c t).timestamp = t ∧
    (c.ring = [] → create_checkpoint c t = ⟨[], t⟩) := by
  refine ⟨?_, rfl, ?_⟩
  · intro h
    exact visited_of_noHeadDup c h
  · intro h
    show (⟨visited c, t⟩ : Checkpoint T M) = ⟨[], t⟩
    rw [visited_of_ring_eq c [] h]
    rfl

/-- Witness for C8 at the container built from `[4, 5]`. -/
theorem c8_witness :
    noHeadDup (fromVals [4, 5]).ring ∧
    (create_checkpoint (fromVals [4, 5]) 3).nodes = (fromVals [4, 5]).ring ∧
    (create_checkpoint (⟨[], 0⟩ : AlterCycle Nat Unit) 3) = ⟨[], 3⟩ :=
  ⟨by decide, (c8_amended (fromVals [4, 5]) 3).1 (by decide),
    (c8_amended (⟨[], 0⟩ : AlterCycle Nat Unit) 3).2.2 (by decide)⟩

end AC

namespace AC

variable {T M : Type} [DecidableEq T] [DecidableEq M]

theorem removeHeadWalk_of_forall_ne (h : AlterNode T M) (l : List (AlterNode T M))
    (hl : ∀ x ∈ l, x ≠ h) (hne : l ≠ []) : removeHeadWalk h l = l := by
  induction l with
  | nil => simp at hne
  | cons x xs ih =>
    cases xs with
    | nil => rfl
    | cons y ys =>
      have hy : y ≠ h := hl y (by simp)
      show (if y = h then [x] else x :: removeHeadWalk h (y :: ys)) = x :: y :: ys
      rw [if_neg hy]
      congr 1
      exact ih (fun z hz => hl z (List.mem_cons_of_mem x hz)) (by simp)

theorem removeScan_of_no_match (h : AlterNode T M) (d : T)
    (l : List (AlterNode T M)) (hl : ∀ x ∈ l, x ≠ h)
    (hm : ∀ x ∈ l, x.data ≠ d) : removeScan h d l = none := by
  induction l with
  | nil => rfl
  | cons x xs ih =>
    show (if x = h then none else if x.data = d then some xs
        else (removeScan h d xs).map (fun l => x :: l)) = none
    rw [if_neg (hl x (by simp)), if_neg (hm x (by simp)),
      ih (fun z hz => hl z (List.mem_cons_of_mem x hz))
         (fun z hz => hm z (List.mem_cons_of_mem x hz))]
    rfl

theorem removeScan_found (h : AlterNode T M) (d : T)
    (l : List (AlterNode T M)) (hl : ∀ x ∈ l, x ≠ h)
    (hm : ∃ x ∈ l, x.data = d) :
    removeScan h d l = some (eraseFirstData l d) := by
  induction l with
  | nil => simp at hm
  | cons x xs ih =>
    have hx : x ≠ h := hl x (by simp)
    by_cases hxd : x.data = d
    · show (if x = h then none else if x.data = d then some xs
          else (removeScan h d xs).map (fun l => x :: l)) = _
      rw [if_neg hx, if_pos hxd]
      show _ = some (if x.data = d then xs else x :: eraseFirstData xs d)
      rw [if_pos hxd]
    · obtain ⟨y, hy, hyd⟩ := hm
      have hy' : y ∈ xs := by
        rcases List.mem_cons.mp hy with h1 | h1
        · exact absurd (h1 ▸ hyd) hxd
        · exact h1
      show (if x = h then none else if x.data = d then some xs
          else (removeScan h d xs).map (fun l => x :: l)) = _
      rw [if_neg hx, if_neg hxd,
        ih (fun z hz => hl z (List.mem_cons_of_mem x hz)) ⟨y, hy', hyd⟩]
      show some (x :: eraseFirstData xs d)
          = some (if x.data = d then xs else x :: eraseFirstData xs d)
      rw [if_neg hxd]

/-- Counterexample to claim C5 as stated: in the ring built by appending
`[0, 1, 0]` (three nodes, head value-equal to the third node), removing
`0` reports success but loses two nodes: the resulting ring is `[(1,1)]`
instead of the tail `[(1,1),(0,0)]` that removal of only the head node
would leave. -/
theorem c5_counterexample :
    remove (fromVals [0, 1, 0]) 0 = (⟨[⟨1, 1, ()⟩], 2⟩, true) ∧
    (fromVals [0, 1, 0]).ring.tail = [⟨1, 1, ()⟩, ⟨0, 0, ()⟩] ∧
    (remove (fromVals [0, 1, 0]) 0).1.ring ≠ (fromVals [0, 1, 0]).ring.tail :=
  ⟨by decide, by decide, by decide⟩

/-- Claim C5, amended: provided no non-head node is value-equal to the
head and the size counter matches the ring length, `remove(value)` removes
exactly the first node whose value equals `value` (checking the head
first, then the rest of the ring in traversal order) and returns true,
re-anchoring the head to the following node when the head was removed (or
to None when the ring empties); it returns false leaving the state
unchanged when the ring is empty or no node matches; removing the sole
element of a one-node ring leaves size 0 and iteration yielding nothing. -/
theorem c5_amended (c : AlterCycle T M) (d : T)
    (h1 : noHeadDup c.ring) (h2 : c.size = c.ring.length) :
    (c.ring = [] → remove c d = (c, false)) ∧
    (∀ hd rst, c.ring = hd :: rst →
      (hd.data = d → remove c d = (⟨rst, c.size - 1⟩, true)) ∧
      (hd.data ≠ d → (∀ x ∈ rst, x.data ≠ d) → remove c d = (c, false)) ∧
      (hd.data ≠ d → (∃ x ∈ rst, x.data = d) →
        remove c d = (⟨hd :: eraseFirstData rst d, c.size - 1⟩, true))) ∧
    (∀ x, c.ring = [x] → x.data = d →
      (remove c d).1.size = 0 ∧ iterPairs (remove c d).1 = []) := by
  rcases c with ⟨ring, s⟩
  simp only at h1 h2 ⊢
  refine ⟨?_, ?_, ?_⟩
  · intro h
    subst h
    rfl
  · intro hd rst hr
    subst hr
    refine ⟨?_, ?_, ?_⟩
    · intro hdd
      rcases rst with _ | ⟨r0, rs⟩
      · show (if hd.data = d then ((⟨[], s - 1⟩ : AlterCycle T M), true)
            else _) = ((⟨[], s - 1⟩ : AlterCycle T M), true)
        rw [if_pos hdd]
      · have hr0 : r0 ≠ hd := h1 r0 (by simp)
        show (if hd.data = d then
            (if r0 = hd then ((⟨[], s - 1⟩ : AlterCycle T M), true)
             else ((⟨removeHeadWalk hd (r0 :: rs), s - 1⟩ : AlterCycle T M), true))
            else _) = _
        rw [if_pos hdd, if_neg hr0,
          removeHeadWalk_of_forall_ne hd (r0 :: rs) h1 (by simp)]
    · intro hdd hnone
      simp only [remove.eq_def]
      rw [if_neg hdd, removeScan_of_no_match hd d rst h1 hnone]
    · intro hdd hsome
      simp only [remove.eq_def]
      rw [if_neg hdd, removeScan_found hd d rst h1 hsome]
  · intro x hx hxd
    subst hx
    have hs : s = 1 := by simpa using h2
    subst hs
    have hrm : remove (⟨[x], 1⟩ : AlterCycle T M) d = (⟨[], 0⟩, true) := by
      show (if x.data = d then ((⟨[], 1 - 1⟩ : AlterCycle T M), true) else _) = _
      rw [if_pos hxd]
    rw [hrm]
    exact ⟨rfl, rfl⟩

/-- Witness for C5 at the container built from `[1, 2]`, removing `2`. -/
theorem c5_witness :
    noHeadDup (fromVals [1, 2]).ring ∧
    (fromVals [1, 2]).size = (fromVals [1, 2]).ring.length ∧
    remove (fromVals [1, 2]) 2 = (⟨[⟨1, 0, ()⟩], 1⟩, true) :=
  ⟨by decide, by decide,
    ((c5_amended (fromVals [1, 2]) 2 (by decide) (by decide)).2.1 ⟨1, 0, ()⟩ [⟨2, 1, ()⟩]
      (by decide)).2.2 (by decide) (by decide)⟩

end AC

namespace AC

variable {T M : Type} [DecidableEq T] [DecidableEq M]

theorem flipN_flipN (n : AlterNode T M) : flipN (flipN n) = n := by
  rcases n with ⟨d, o, m⟩
  simp [flipN]

theorem flipN_inj (a b : AlterNode T M) (h : flipN a = flipN b) : a = b := by
  rw [← flipN_flipN a, h, flipN_flipN]

theorem map_flipN_flipN (r : List (AlterNode T M)) : (r.map flipN).map flipN = r := by
  rw [List.map_map]
  have hcomp : flipN (M := M) (T := T) ∘ flipN = id := funext flipN_flipN
  rw [hcomp, List.map_id]

theorem checkFlip_of_forall_ne (h : AlterNode T M) (l : List (AlterNode T M))
    (hl : ∀ y ∈ l, y ≠ h) : checkFlip h l = (l.map flipN, none) := by
  induction l with
  | nil => rfl
  | cons y ys ih =>
    simp only [checkFlip]
    rw [if_neg (hl y (by simp)), ih (fun z hz => hl z (List.mem_cons_of_mem y hz))]
    rfl

theorem lapAt_zero_of_flipSafe (r : List (AlterNode T M)) (hs : flipSafe r) :
    lapAt r 0 = (r.map flipN, 0) := by
  rcases r with _ | ⟨x, xs⟩
  · rfl
  · have hx : ∀ y ∈ xs, y ≠ flipN x := hs
    simp only [lapAt, if_true]
    rw [checkFlip_of_forall_ne (flipN x) xs hx]
    rfl

theorem flipSafe_map_flipN (r : List (AlterNode T M)) (hs : flipSafe r) :
    flipSafe (r.map flipN) := by
  rcases r with _ | ⟨x, xs⟩
  · trivial
  · simp only [List.map_cons]
    intro z hz
    obtain ⟨y, hy, hzy⟩ := List.mem_map.mp hz
    rw [← hzy]
    intro hcontra
    exact hs y hy (flipN_inj y (flipN x) hcontra)

theorem flipLaps_of_flipSafe (r : List (AlterNode T M)) (hs : flipSafe r) (k : Nat) :
    flipLaps r 0 k = (if k % 2 = 0 then r else r.map flipN, 0) := by
  induction k generalizing r with
  | zero => simp [flipLaps]
  | succ k ih =>
    show flipLaps (lapAt r 0).1 (lapAt r 0).2 k = _
    rw [lapAt_zero_of_flipSafe r hs]
    show flipLaps (r.map flipN) 0 k = _
    rw [ih (r.map flipN) (flipSafe_map_flipN r hs)]
    rcases Nat.mod_two_eq_zero_or_one k with h | h
    · have h2 : (k + 1) % 2 = 1 := by omega
      simp [h, h2]
    · have h2 : (k + 1) % 2 = 0 := by omega
      rw [if_neg (by omega), if_pos h2, map_flipN_flipN]

theorem flip_states_of_flipSafe (c : AlterCycle T M) (k : Int) (hs : flipSafe c.ring)
    (hne : c.ring ≠ []) (hk : k ≠ 0) :
    flip_states c k = ⟨if k.natAbs % 2 = 0 then c.ring else c.ring.map flipN, c.size⟩ := by
  rw [flip_states, if_neg (by simp [hne, hk])]
  rw [flipLaps_of_flipSafe c.ring hs k.natAbs]

/-- Counterexample to claim C6 as stated: appending `[0, 0]` gives the
ring `[(0,0),(0,1)]`, whose second node is value-equal to the flipped
head; the first `flip_states(1)` lap stops after flipping only the head,
and applying `flip_states(1)` twice yields `[(0,0),(0,0)]`, not the
original ring. -/
theorem c6_counterexample :
    (fromVals [0, 0]).ring = [⟨0, 0, ()⟩, ⟨0, 1, ()⟩] ∧
    flip_states (flip_states (fromVals [0, 0]) 1) 1
      = ⟨[⟨0, 0, ()⟩, ⟨0, 0, ()⟩], 2⟩ ∧
    flip_states (flip_states (fromVals [0, 0]) 1) 1 ≠ fromVals [0, 0] :=
  ⟨by decide, by decide, by decide⟩

/-- Claim C6, amended: provided no non-head node is value-equal to the
flipped head record (same data and metadata as the head, opposite
orientation), applying `flipStates(k)` twice returns the container to its
previous state; a single call never changes any node data or metadata;
and a single call with `k ≠ 0` on a non-empty ring is the identity when
the number of laps `|k|` is even and a full inversion when it is odd. -/
theorem c6_amended (c : AlterCycle T M) (k : Int) (hs : flipSafe c.ring) :
    flip_states (flip_states c k) k = c ∧
    (flip_states c k).ring.map (fun n => (n.data, n.metadata))
      = c.ring.map (fun n => (n.data, n.metadata)) ∧
    (k ≠ 0 → c.ring ≠ [] →
      (flip_states c k).ring = if k.natAbs % 2 = 0 then c.ring else c.ring.map flipN) := by
  by_cases hk : k = 0
  · subst hk
    have h0 : flip_states c 0 = c := by
      rw [flip_states, if_pos (Or.inr rfl)]
    exact ⟨by rw [h0, h0], by rw [h0], fun hbad _ => absurd rfl hbad⟩
  · by_cases hne : c.ring = []
    · have h0 : ∀ j : Int, flip_states c j = c := by
        intro j
        rw [flip_states, if_pos (Or.inl hne)]
      exact ⟨by rw [h0, h0], by rw [h0], fun _ hbad => absurd hne hbad⟩
    · have hchar := flip_states_of_flipSafe c k hs hne hk
      have hs2 : flipSafe (flip_states c k).ring := by
        rw [hchar]
        show flipSafe (if k.natAbs % 2 = 0 then c.ring else c.ring.map flipN)
        split
        · exact hs
        · exact flipSafe_map_flipN _ hs
      have hne2 : (flip_states c k).ring ≠ [] := by
        rw [hchar]
        show (if k.natAbs % 2 = 0 then c.ring else c.ring.map flipN) ≠ []
        split
        · exact hne
        · simp [hne]
      have hchar2 := flip_states_of_flipSafe (flip_states c k) k hs2 hne2 hk
      refine ⟨?_, ?_, fun _ _ => by rw [hchar]⟩
      · rw [hchar2, hchar]
        rcases c with ⟨ring, s⟩
        simp only
        rcases Nat.mod_two_eq_zero_or_one k.natAbs with h | h
        · simp [h]
        · simp [h]
          have hcomp : flipN (M := M) (T := T) ∘ flipN = id := funext flipN_flipN
          rw [hcomp, List.map_id]
      · rw [hchar]
        show (if k.natAbs % 2 = 0 then c.ring else c.ring.map flipN).map
            (fun n => (n.data, n.metadata)) = _
        split
        · rfl
        · rw [List.map_map]
          exact List.map_congr_left (fun n _ => rfl)

/-- Witness for C6 at the container built from `[0, 1]` with `k = 1`. -/
theorem c6_witness :
    flipSafe (fromVals [0, 1]).ring ∧
    flip_states (flip_states (fromVals [0, 1]) 1) 1 = fromVals [0, 1] :=
  ⟨by decide, (c6_amended (fromVals [0, 1]) 1 (by decide)).1⟩

end AC

namespace AC

variable {T M : Type} [DecidableEq T] [DecidableEq M]

theorem mem_tblKeys_of_mem {W : Type} (acc : List (W × Nat)) (w : W) (k : Nat)
    (h : (w, k) ∈ acc) : w ∈ tblKeys acc :=
  List.mem_map_of_mem Prod.fst h

theorem tblCnt_bump {W : Type} [DecidableEq W] (acc : List (W × Nat)) (w v : W) :
    tblCnt (bump acc w) v = tblCnt acc v + (if w = v then 1 else 0) := by
  induction acc with
  | nil =>
    by_cases h : w = v
    · simp [bump, tblCnt, h]
    · simp [bump, tblCnt, h]
  | cons p acc ih =>
    rcases p with ⟨x, k⟩
    by_cases hxw : x = w
    · subst hxw
      simp only [bump, if_pos rfl]
      by_cases hxv : x = v
      · simp [tblCnt, hxv]
      · simp [tblCnt, hxv]
    · simp only [bump, if_neg hxw]
      by_cases hxv : x = v
      · have hwv : ¬ w = v := fun hwv => hxw (hxv.trans hwv.symm)
        simp [tblCnt, hxv, hwv]
      · simp [tblCnt, hxv, ih]

theorem mem_tblKeys_bump {W : Type} [DecidableEq W] (acc : List (W × Nat)) (w v : W) :
    v ∈ tblKeys (bump acc w) ↔ v ∈ tblKeys acc ∨ v = w := by
  induction acc with
  | nil => simp [bump, tblKeys]
  | cons p acc ih =>
    rcases p with ⟨x, k⟩
    by_cases hxw : x = w
    · subst hxw
      simp only [bump, if_pos rfl]
      simp [tblKeys]
      tauto
    · simp only [bump, if_neg hxw]
      simp only [tblKeys, List.map_cons, List.mem_cons] at ih ⊢
      rw [ih]
      tauto

theorem tblKeys_bump_of_mem {W : Type} [DecidableEq W] (acc : List (W × Nat)) (w : W)
    (h : w ∈ tblKeys acc) : tblKeys (bump acc w) = tblKeys acc := by
  induction acc with
  | nil => simp [tblKeys] at h
  | cons p acc ih =>
    rcases p with ⟨x, k⟩
    by_cases hxw : x = w
    · subst hxw
      simp [bump, tblKeys]
    · simp only [bump, if_neg hxw, tblKeys, List.map_cons]
      congr 1
      refine ih ?_
      simp only [tblKeys, List.map_cons, List.mem_cons] at h
      rcases h with h | h
      · exact absurd h.symm hxw
      · exact h

theorem tblKeys_bump_of_not_mem {W : Type} [DecidableEq W] (acc : List (W × Nat)) (w : W)
    (h : w ∉ tblKeys acc) : tblKeys (bump acc w) = tblKeys acc ++ [w] := by
  induction acc with
  | nil => simp [bump, tblKeys]
  | cons p acc ih =>
    rcases p with ⟨x, k⟩
    have hxw : x ≠ w := by
      intro hx
      apply h
      show w ∈ x :: tblKeys acc
      simp [hx]
    simp only [bump, if_neg hxw, tblKeys, List.map_cons, List.cons_append]
    congr 1
    refine ih ?_
    intro hmem
    apply h
    show w ∈ x :: tblKeys acc
    exact List.mem_cons_of_mem x hmem

theorem nodup_tblKeys_bump {W : Type} [DecidableEq W] (acc : List (W × Nat)) (w : W)
    (h : (tblKeys acc).Nodup) : (tblKeys (bump acc w)).Nodup := by
  by_cases hm : w ∈ tblKeys acc
  · rw [tblKeys_bump_of_mem acc w hm]
    exact h
  · rw [tblKeys_bump_of_not_mem acc w hm]
    rw [List.nodup_append]
    refine ⟨h, List.nodup_singleton w, ?_⟩
    intro a ha hb
    simp at hb
    subst hb
    exact hm ha

theorem tblCnt_foldl {W : Type} [DecidableEq W] (L : List W) (acc : List (W × Nat)) (v : W) :
    tblCnt (L.foldl bump acc) v = tblCnt acc v + occCount L v := by
  induction L generalizing acc with
  | nil => simp [occCount]
  | cons x L ih =>
    show tblCnt (L.foldl bump (bump acc x)) v = _
    rw [ih (bump acc x), tblCnt_bump]
    show _ = tblCnt acc v + ((if x = v then 1 else 0) + occCount L v)
    omega

theorem mem_tblKeys_foldl {W : Type} [DecidableEq W] (L : List W) (acc : List (W × Nat)) (v : W) :
    v ∈ tblKeys (L.foldl bump acc) ↔ v ∈ tblKeys acc ∨ v ∈ L := by
  induction L generalizing acc with
  | nil => simp
  | cons x L ih =>
    show v ∈ tblKeys (L.foldl bump (bump acc x)) ↔ _
    rw [ih (bump acc x), mem_tblKeys_bump]
    simp [List.mem_cons]
    tauto

theorem nodup_tblKeys_foldl {W : Type} [DecidableEq W] (L : List W) (acc : List (W × Nat))
    (h : (tblKeys acc).Nodup) : (tblKeys (L.foldl bump acc)).Nodup := by
  induction L generalizing acc with
  | nil => exact h
  | cons x L ih =>
    show (tblKeys (L.foldl bump (bump acc x))).Nodup
    exact ih (bump acc x) (nodup_tblKeys_bump acc x h)

theorem mem_table_iff {W : Type} [DecidableEq W] (acc : List (W × Nat))
    (hnd : (tblKeys acc).Nodup) (w : W) (k : Nat) :
    (w, k) ∈ acc ↔ w ∈ tblKeys acc ∧ k = tblCnt acc w := by
  induction acc with
  | nil => simp [tblKeys, tblCnt]
  | cons p acc ih =>
    rcases p with ⟨x, j⟩
    have hnd2 : (tblKeys acc).Nodup := by
      simp only [tblKeys, List.map_cons, List.nodup_cons] at hnd
      exact hnd.2
    have hxnot : x ∉ tblKeys acc := by
      simp only [tblKeys, List.map_cons, List.nodup_cons] at hnd
      exact hnd.1
    by_cases hxw : x = w
    · subst hxw
      have ht : tblCnt ((x, j) :: acc) x = j := by
        show (if x = x then j else tblCnt acc x) = j
        rw [if_pos rfl]
      rw [ht]
      constructor
      · intro hin
        rcases List.mem_cons.mp hin with heq | hmem
        · have hk : k = j := by
            have := congrArg Prod.snd heq
            simpa using this
          exact ⟨List.mem_cons_self _ _, hk⟩
        · exact absurd (mem_tblKeys_of_mem acc x k hmem) hxnot
      · rintro ⟨-, rfl⟩
        exact List.mem_cons_self _ _
    · have ht : tblCnt ((x, j) :: acc) w = tblCnt acc w := by
        show (if x = w then j else tblCnt acc w) = _
        rw [if_neg hxw]
      have hm : w ∈ tblKeys ((x, j) :: acc) ↔ w ∈ tblKeys acc := by
        show w ∈ x :: tblKeys acc ↔ _
        constructor
        · intro hw
          rcases List.mem_cons.mp hw with hw | hw
          · exact absurd hw.symm hxw
          · exact hw
        · exact fun hw => List.mem_cons_of_mem x hw
      rw [ht, hm, ← ih hnd2]
      constructor
      · intro hin
        rcases List.mem_cons.mp hin with heq | hmem
        · have : w = x := by
            have := congrArg Prod.fst heq
            simpa using this
          exact absurd this.symm hxw
        · exact hmem
      · exact fun hmem => List.mem_cons_of_mem _ hmem

theorem mem_foldl_bump_iff {W : Type} [DecidableEq W] (L : List W) (w : W) (k : Nat) :
    (w, k) ∈ L.foldl bump [] ↔ w ∈ L ∧ k = occCount L w := by
  have hnd : (tblKeys (L.foldl bump ([] : List (W × Nat)))).Nodup :=
    nodup_tblKeys_foldl L [] (by simp [tblKeys])
  rw [mem_table_iff _ hnd, mem_tblKeys_foldl, tblCnt_foldl]
  show (w ∈ tblKeys ([] : List (W × Nat)) ∨ w ∈ L) ∧ k = tblCnt ([] : List (W × Nat)) w + occCount L w ↔ _
  simp [tblKeys, tblCnt]

end AC

namespace AC

variable {T M : Type} [DecidableEq T] [DecidableEq M]

theorem find_patterns_guard (c : AlterCycle T M) (len : Int)
    (h : c.ring = [] ∨ (c.size : Int) < len) : find_patterns c len = [] := by
  rw [find_patterns, if_pos h]

theorem find_patterns_eq (c : AlterCycle T M) (len : Int)
    (h1 : c.ring ≠ []) (h2 : len ≤ (c.size : Int)) :
    find_patterns c len
      = ((collectWindows c len.toNat).foldl bump []).filter (fun pk => 1 < pk.2) := by
  rw [find_patterns, if_neg]
  push_neg
  exact ⟨h1, by omega⟩

theorem collectWindows_eq_spec (c : AlterCycle T M) (len : Nat)
    (hnd : noHeadDup c.ring) (hsz : c.size = c.ring.length) :
    collectWindows c len = specWindows c len := by
  rw [collectWindows, specWindows, visited_of_noHeadDup c hnd, hsz]

/-- Counterexample to claim C3 as stated: in the ring built by appending
`[0, 1, 0]` the outer loop of `find_patterns` stops after two of the three
ring positions (the third node is value-equal to the head), so the window
`[(0,0)]` — which occurs twice among the `size` windows the claim
prescribes — is not reported: the call returns the empty list. -/
theorem c3_counterexample :
    find_patterns (fromVals [0, 1, 0]) 1 = [] ∧
    [((0:Nat), (0:Int))] ∈ specWindows (fromVals [0, 1, 0]) 1 ∧
    occCount (specWindows (fromVals [0, 1, 0]) 1) [((0:Nat), (0:Int))] = 2 :=
  ⟨by decide, by decide, by decide⟩

/-- Claim C3, amended: provided no non-head node is value-equal to the
head and the size counter matches the ring length, `findPatterns(length)`
with positive `length` considers exactly `size` windows — one starting at
each ring position, wrapping across the seam — and returns exactly those
windows whose occurrence count among the `size` windows exceeds 1, paired
with that count; it returns the empty list whenever the ring is empty or
`length` exceeds `size`. -/
theorem c3_amended (c : AlterCycle T M) (len : Int) (hnd : noHeadDup c.ring)
    (hsz : c.size = c.ring.length) (hpos : 0 < len) :
    (c.ring = [] ∨ (c.size : Int) < len → find_patterns c len = []) ∧
    (len ≤ (c.size : Int) → c.ring ≠ [] →
      collectWindows c len.toNat = specWindows c len.toNat ∧
      ∀ w k, (w, k) ∈ find_patterns c len ↔
        w ∈ specWindows c len.toNat
          ∧ k = occCount (specWindows c len.toNat) w ∧ 1 < k) := by
  refine ⟨find_patterns_guard c len,
    fun hle hne => ⟨collectWindows_eq_spec c len.toNat hnd hsz, ?_⟩⟩
  intro w k
  rw [find_patterns_eq c len hne hle, List.mem_filter,
    collectWindows_eq_spec c len.toNat hnd hsz, mem_foldl_bump_iff]
  constructor
  · rintro ⟨⟨hw, hk⟩, hgt⟩
    exact ⟨hw, hk, by simpa using hgt⟩
  · rintro ⟨hw, hk, hgt⟩
    exact ⟨⟨hw, hk⟩, by simpa using hgt⟩

/-- Witness for C3 at the ring built from `[0, 1, 2, 3, 2, 5]` with
window length 1: the window `[(2,0)]` occurs twice and is reported. -/
theorem c3_witness :
    noHeadDup (fromVals [0, 1, 2, 3, 2, 5]).ring ∧
    (fromVals [0, 1, 2, 3, 2, 5]).size = (fromVals [0, 1, 2, 3, 2, 5]).ring.length ∧
    (([((2:Nat), (0:Int))], 2) ∈ find_patterns (fromVals [0, 1, 2, 3, 2, 5]) 1 ↔
      [((2:Nat), (0:Int))] ∈ specWindows (fromVals [0, 1, 2, 3, 2, 5]) 1
        ∧ 2 = occCount (specWindows (fromVals [0, 1, 2, 3, 2, 5]) 1) [((2:Nat), (0:Int))]
        ∧ 1 < 2) :=
  ⟨by decide, by decide,
    ((c3_amended (fromVals [0, 1, 2, 3, 2, 5]) 1 (by decide) (by decide) (by decide)).2
      (by decide) (by decide)).2 [((2:Nat), (0:Int))] 2⟩

theorem range_map_const {α : Type} (n : Nat) (a : α) :
    (List.range n).map (fun _ => a) = List.replicate n a := by
  induction n with
  | zero => rfl
  | succ n ih =>
    rw [List.range_succ, List.map_append, ih]
    show List.replicate n a ++ [a] = _
    rw [← List.replicate_succ' n a]

theorem foldl_bump_replicate {W : Type} [DecidableEq W] (w : W) (n k : Nat) :
    (List.replicate n w).foldl bump [(w, k)] = [(w, k + n)] := by
  induction n generalizing k with
  | zero => simp
  | succ n ih =>
    show (List.replicate n w).foldl bump (bump [(w, k)] w) = _
    have hb : bump [(w, k)] w = [(w, k + 1)] := by simp [bump]
    rw [hb, ih (k + 1)]
    have : k + 1 + n = k + (n + 1) := by omega
    rw [this]

/-- Counterexample to claim C10 as stated (its final clause): the ring
built from `[0, 1]` is non-empty with `size = 2` and `pattern_length = 2`
does not exceed the size, yet `find_patterns` returns the empty list,
because the two windows are distinct (each occurs once). -/
theorem c10_counterexample :
    find_patterns (fromVals [0, 1]) 2 = [] ∧
    (fromVals [0, 1]).ring ≠ [] ∧
    (2 : Int) ≤ ((fromVals [0, 1]).size : Int) :=
  ⟨by decide, by decide, by decide⟩

/-- Claim C10, amended: for every ring with no non-head node value-equal
to the head, size counter equal to the ring length and at least two nodes,
`find_patterns` with `pattern_length ≤ 0` returns exactly the
single-element list containing the empty pattern with occurrence count
`size`.  (An empty ring or a length exceeding `size` still yields the
empty list, but those are not the only empty-result inputs: a positive
length whose windows are all distinct also yields the empty list.) -/
theorem c10_amended (c : AlterCycle T M) (len : Int) (hnd : noHeadDup c.ring)
    (hsz : c.size = c.ring.length) (h2 : 2 ≤ c.size) (hlen : len ≤ 0) :
    find_patterns c len = [([], c.size)] := by
  have hne : c.ring ≠ [] := by
    intro h
    rw [h] at hsz
    simp at hsz
    omega
  rw [find_patterns_eq c len hne (by omega)]
  have htn : len.toNat = 0 := Int.toNat_of_nonpos hlen
  rw [htn]
  have hcoll : collectWindows c 0 = List.replicate c.size ([] : List (T × Int)) := by
    rw [collectWindows, visited_of_noHeadDup c hnd, ← hsz]
    calc (List.range c.size).map (fun p => windowAt c.ring p 0)
        = (List.range c.size).map (fun _ => ([] : List (T × Int))) :=
          List.map_congr_left (fun p _ => rfl)
      _ = List.replicate c.size [] := range_map_const _ _
  rw [hcoll]
  obtain ⟨n, hn⟩ : ∃ n, c.size = n + 1 := ⟨c.size - 1, by omega⟩
  rw [hn]
  show ((List.replicate n ([] : List (T × Int))).foldl bump
      (bump [] [])).filter (fun pk => 1 < pk.2) = _
  have hb : bump ([] : List (List (T × Int) × Nat)) [] = [([], 1)] := rfl
  rw [hb, foldl_bump_replicate]
  have h1n : 1 < 1 + n := by omega
  have hd1 : decide (1 < 1 + n) = true := decide_eq_true h1n
  simp only [List.filter]
  rw [hd1]
  have hcomm : 1 + n = n + 1 := by omega
  rw [hcomm]

/-- Witness for C10 at the ring built from `[3, 4]` with length 0. -/
theorem c10_witness :
    noHeadDup (fromVals [3, 4]).ring ∧
    (fromVals [3, 4]).size = (fromVals [3, 4]).ring.length ∧
    2 ≤ (fromVals [3, 4]).size ∧
    find_patterns (fromVals [3, 4]) 0 = [([], (fromVals [3, 4]).size)] :=
  ⟨by decide, by decide, by decide,
    c10_amended (fromVals [3, 4]) 0 (by decide) (by decide) (by decide) (by decide)⟩

end AC

namespace AC

variable {T M : Type} [DecidableEq T] [DecidableEq M]

theorem ppLoop_length (r : List (AlterNode T M)) (hr : r ≠ []) (q rem : Nat) :
    ∀ (fuel i pos : Nat), (ppLoop r hr q rem i pos fuel).length = fuel := by
  intro fuel
  induction fuel with
  | zero => intro i pos; rfl
  | succ fuel ih =>
    intro i pos
    show (ppLoop r hr q rem (i + 1)
        (pos + (q + if i < rem then 1 else 0)) fuel).length + 1 = fuel + 1
    rw [ih]

theorem ppLoop_map_length (r : List (AlterNode T M)) (hr : r ≠ []) (q rem : Nat) :
    ∀ (fuel i pos : Nat),
      (ppLoop r hr q rem i pos fuel).map List.length
        = (List.range fuel).map (fun t => q + if i + t < rem then 1 else 0) := by
  intro fuel
  induction fuel with
  | zero => intro i pos; rfl
  | succ fuel ih =>
    intro i pos
    simp only [ppLoop, List.map_cons, List.length_map, List.length_range]
    rw [ih, List.range_succ_eq_map, List.map_cons, List.map_map]
    refine congrArg₂ List.cons (by simp) ?_
    refine List.map_congr_left (fun t _ => ?_)
    show q + (if i + 1 + t < rem then 1 else 0) = q + (if i + (t + 1) < rem then 1 else 0)
    have h : i + 1 + t = i + (t + 1) := by omega
    rw [h]

theorem range_add_split (a b : Nat) :
    List.range (a + b) = List.range a ++ (List.range b).map (fun j => a + j) := by
  induction b with
  | zero => simp
  | succ b ih =>
    rw [show a + (b + 1) = (a + b) + 1 from rfl, List.range_succ, ih, List.range_succ]
    simp [List.map_append]

theorem ppLoop_join (r : List (AlterNode T M)) (hr : r ≠ []) (q rem : Nat) :
    ∀ (fuel i pos : Nat),
      (ppLoop r hr q rem i pos fuel).join
        = (List.range (segTot q rem i fuel)).map
            (fun j => ((cycGet r hr (pos + j)).data, (cycGet r hr (pos + j)).orientation)) := by
  intro fuel
  induction fuel with
  | zero => intro i pos; rfl
  | succ fuel ih =>
    intro i pos
    show ((List.range (q + if i < rem then 1 else 0)).map
        (fun j => ((cycGet r hr (pos + j)).data, (cycGet r hr (pos + j)).orientation)))
        ++ (ppLoop r hr q rem (i + 1) (pos + (q + if i < rem then 1 else 0)) fuel).join
        = _
    rw [ih (i + 1) (pos + (q + if i < rem then 1 else 0))]
    rw [show segTot q rem i (fuel + 1)
        = (q + if i < rem then 1 else 0) + segTot q rem (i + 1) fuel from rfl]
    rw [range_add_split (q + if i < rem then 1 else 0) (segTot q rem (i + 1) fuel),
      List.map_append, List.map_map]
    congr 1
    refine List.map_congr_left (fun j _ => ?_)
    show ((cycGet r hr (pos + (q + if i < rem then 1 else 0) + j)).data, _)
        = ((cycGet r hr (pos + ((q + if i < rem then 1 else 0) + j))).data, _)
    rw [Nat.add_assoc]

theorem segTot_eq (q rem : Nat) : ∀ (fuel i : Nat),
    segTot q rem i fuel = q * fuel + (min (i + fuel) rem - min i rem) := by
  intro fuel
  induction fuel with
  | zero => intro i; simp [segTot]
  | succ fuel ih =>
    intro i
    show (q + if i < rem then 1 else 0) + segTot q rem (i + 1) fuel = _
    rw [ih (i + 1), Nat.mul_succ]
    by_cases h : i < rem
    · rw [if_pos h]
      omega
    · rw [if_neg h]
      omega

theorem segTot_total (sz k : Nat) (hk : 0 < k) :
    segTot (sz / k) (sz % k) 0 k = sz := by
  rw [segTot_eq]
  have h1 : sz % k < k := Nat.mod_lt _ hk
  have h2 := Nat.div_add_mod sz k
  have h3 : sz / k * k = k * (sz / k) := Nat.mul_comm _ _
  omega

theorem range_map_cycGet (r : List (AlterNode T M)) (hr : r ≠ []) :
    (List.range r.length).map
        (fun j => ((cycGet r hr (0 + j)).data, (cycGet r hr (0 + j)).orientation))
      = r.map (fun n => (n.data, n.orientation)) := by
  apply List.ext_get
  · simp
  · intro i h1 h2
    have hlen : i < r.length := by simpa using h1
    have hmod : (0 + i) % r.length = i := by
      rw [Nat.zero_add, Nat.mod_eq_of_lt hlen]
    rw [List.get_map, List.get_map, List.get_range]
    show ((cycGet r hr (0 + i)).data, (cycGet r hr (0 + i)).orientation) = _
    rw [cycGet]
    have hfin : (⟨(0 + i) % r.length, Nat.mod_lt _ (List.length_pos.mpr hr)⟩ : Fin r.length)
        = ⟨i, hlen⟩ := Fin.ext hmod
    rw [hfin]

/-- Claim C4: for every non-empty ring whose size counter equals its node
count and every `workerCount = k ≥ 1`, `process_parallel` partitions the
ring into `k` contiguous segments in traversal order from the head — the
first `size mod k` of length `size / k + 1` and the rest of length
`size / k` — and the per-worker callback argument lists concatenate to
exactly one `(value, orientation)` pair per ring node in ring order, i.e.
`size` invocations in total, once per node. -/
theorem c4_partition (c : AlterCycle T M) (k : Nat)
    (hne : c.ring ≠ []) (hk : 1 ≤ k) (hsz : c.size = c.ring.length) :
    ∃ S, process_parallel c k = some S ∧
      S.length = k ∧
      S.map List.length
        = (List.range k).map (fun i => c.size / k + if i < c.size % k then 1 else 0) ∧
      S.join = c.ring.map (fun n => (n.data, n.orientation)) := by
  rcases c with ⟨ring, s⟩
  simp only at hne hsz ⊢
  rcases ring with _ | ⟨h, t⟩
  · exact absurd rfl hne
  · refine ⟨ppLoop (h :: t) (List.cons_ne_nil h t) (s / k) (s % k) 0 0 k, ?_, ?_, ?_, ?_⟩
    · show (if k = 0 then none else some _) = _
      rw [if_neg (by omega)]
    · exact ppLoop_length _ _ _ _ k 0 0
    · rw [ppLoop_map_length]
      exact List.map_congr_left (fun t _ => by simp)
    · rw [ppLoop_join, segTot_total s k (by omega), hsz]
      exact range_map_cycGet (h :: t) (List.cons_ne_nil h t)

/-- Witness for C4 at a 100-node ring with 4 workers: segment sizes are
`[25, 25, 25, 25]` and the callback argument lists cover the ring. -/
theorem c4_witness :
    (⟨altRing 0 (List.replicate 100 ((0:Nat), ())), 100⟩ : AlterCycle Nat Unit).ring ≠ [] ∧
    (⟨altRing 0 (List.replicate 100 ((0:Nat), ())), 100⟩ : AlterCycle Nat Unit).size
      = (⟨altRing 0 (List.replicate 100 ((0:Nat), ())), 100⟩ : AlterCycle Nat Unit).ring.length ∧
    (∃ S, process_parallel
        (⟨altRing 0 (List.replicate 100 ((0:Nat), ())), 100⟩ : AlterCycle Nat Unit) 4 = some S ∧
      S.length = 4 ∧
      S.map List.length = [25, 25, 25, 25] ∧
      S.join = (altRing 0 (List.replicate 100 ((0:Nat), ()))).map
        (fun n => (n.data, n.orientation))) := by
  refine ⟨by decide, by decide, ?_⟩
  obtain ⟨S, hS, hlen, hmap, hjoin⟩ :=
    c4_partition (⟨altRing 0 (List.replicate 100 ((0:Nat), ())), 100⟩ : AlterCycle Nat Unit) 4
      (by decide) (by decide) (by decide)
  refine ⟨S, hS, hlen, ?_, hjoin⟩
  rw [hmap]
  decide

/-- Claim C9: with a non-empty ring, `process_parallel` with
`num_threads = 0` hits the unguarded integer division `length // 0` and
raises `ZeroDivisionError` (modelled as `none`) before any worker is
spawned, hence before any callback invocation; with an empty ring the call
returns immediately without error for every `num_threads`. -/
theorem c9_divzero (c : AlterCycle T M) (k s : Nat) :
    (c.ring ≠ [] → process_parallel c 0 = none) ∧
    process_parallel (⟨[], s⟩ : AlterCycle T M) k = some [] := by
  constructor
  · intro hne
    rcases c with ⟨ring, s'⟩
    rcases ring with _ | ⟨h, t⟩
    · exact absurd rfl hne
    · rfl
  · rfl

/-- Witness for C9: division by zero on a one-node ring, and the empty
container with 7 workers. -/
theorem c9_witness :
    (fromVals [1]).ring ≠ [] ∧
    process_parallel (fromVals [1]) 0 = none ∧
    process_parallel (⟨[], 5⟩ : AlterCycle Nat Unit) 7 = some [] :=
  ⟨by decide, (c9_divzero (fromVals [1]) 7 5).1 (by decide),
    (c9_divzero (fromVals [1]) 7 5).2⟩

end AC
